import Mathlib

/-!
Verification development for the Intune CSV consolidator
(src/Intune_CSV_consolidator.py).

The Python program is shallowly embedded as executable Lean functions.

Modelling conventions:

* A Python cell value as it appears inside a row dictionary is `PyVal`:
  a string (`PyVal.str`), the placeholder `None` (`PyVal.none`, the
  `restval` that `csv.DictReader` stores for missing trailing columns),
  or a list of strings (`PyVal.lst`, the value `csv.DictReader` stores
  under its `restkey` for excess values).

* A Python `dict` produced by the reader is an insertion-ordered
  association list `Row = List (Option String × PyVal)`.  Keys are
  `Option String` because the rest key of `csv.DictReader` is the Python
  value `None` (embedded as `Option.none`); ordinary column names are
  `some name`.  `dictInsert` reproduces Python dict assignment
  (overwrite in place, else append).

* CSV text is parsed in the quote-free fragment of the `csv` module:
  records are the newline-separated lines of the file (a trailing
  newline does not create an extra record, a trailing `\r` is dropped),
  a blank line parses to the empty record `[]`, and any other line is
  split on the delimiter of the dialect.  The `csv.Sniffer` dialect guess is
  abstracted as the explicit `delim` parameter.  Quoted fields are
  outside the scope of the claims under verification.

* File-system reads are abstracted as the full text content of the file
  (`Option String`: `Option.none` embeds an I/O or decode error), and
  the directory walked by `glob.glob` is abstracted as the list of the
  file paths relative to the root, each path a list of components.
-/

/-- A Python value stored in a row dictionary by the consolidator:
a cell string, the `None` placeholder, or the `restkey` list of excess
cell values. -/
inductive PyVal where
  | str (s : String)
  | none
  | lst (l : List String)
deriving DecidableEq, Repr

/-- A row as produced by `csv.DictReader` / the headerless fallback:
an insertion-ordered dictionary from key (`some` column name, or the
rest key `None` embedded as `Option.none`) to value. -/
abbrev Row : Type := List (Option String × PyVal)

/-- Python `dict` lookup (`row.get(key)` returning `None` when the key
is absent is `rowLookup r key = Option.none`). -/
def rowLookup : Row → Option String → Option PyVal
  | [], _ => Option.none
  | (k, v) :: rest, key => if k = key then some v else rowLookup rest key

/-- The key list of a row dictionary, in insertion order. -/
def rowKeys (r : Row) : List (Option String) :=
  (r : List (Option String × PyVal)).map Prod.fst

/-- Python `d[k] = v`: overwrite the binding in place when the key is
already present, otherwise append it. -/
def dictInsert : Row → Option String → PyVal → Row
  | [], k, v => [(k, v)]
  | (k0, v0) :: rest, k, v =>
    if k0 = k then (k0, v) :: rest else (k0, v0) :: dictInsert rest k v

/-- Build a Python dict by assigning the given pairs left to right
(`dict(zip(...))`, or a `for` loop of `d[k] = v` assignments). -/
def dictOfPairs (pairs : List (Option String × PyVal)) : Row :=
  pairs.foldl (fun d kv => dictInsert d kv.1 kv.2) ([] : Row)

/-- One data row of `csv.DictReader` (file lines 339-345 of the source,
CPython `csv.DictReader.__next__`): zip the header names with the cell
values; excess values go under the rest key `None` as a list; missing
trailing header columns are stored with the placeholder `None`. -/
def mkDictRow (fieldnames : List String) (row : List String) : Row :=
  let base := dictOfPairs
    ((fieldnames.zip row).map (fun p => ((some p.1 : Option String), PyVal.str p.2)))
  if fieldnames.length < row.length then
    dictInsert base Option.none (PyVal.lst (row.drop fieldnames.length))
  else if row.length < fieldnames.length then
    (fieldnames.drop row.length).foldl
      (fun d k => dictInsert d (some k) PyVal.none) base
  else base

/-- The synthesized generic headers `Column1 .. ColumnN`
(source lines 354-356 and 377-379). -/
def genHeaders (n : Nat) : List String :=
  (List.range n).map (fun i => "Column" ++ toString (i + 1))

/-- One data row of the headerless fallback (source lines 360-365 and
383-388): `for i, value in enumerate(row[:numColumns]):
rowDict[headers[i]] = value`. -/
def mkGenericRow (headers : List String) (numColumns : Nat) (row : List String) : Row :=
  dictOfPairs
    ((headers.zip (row.take numColumns)).map
      (fun p => ((some p.1 : Option String), PyVal.str p.2)))

/-- Split a character list on a separator character; every separator
occurrence ends a (possibly empty) field. -/
def splitAux (c : Char) : List Char → List Char → List (List Char)
  | [], acc => [acc.reverse]
  | x :: xs, acc =>
    if x = c then acc.reverse :: splitAux c xs []
    else splitAux c xs (x :: acc)

/-- Drop one trailing carriage return from a record line. -/
def dropCR (l : List Char) : List Char :=
  if l.getLast? = some (Char.ofNat 13) then l.dropLast else l

/-- The record lines of the file content: split on newline, a trailing
newline produces no extra record, and a trailing `\r` of each line is
dropped. -/
def rawLines (content : String) : List (List Char) :=
  let parts := splitAux (Char.ofNat 10) content.data []
  let parts := if parts.getLast? = some [] then parts.dropLast else parts
  parts.map dropCR

/-- Parse one record line: a blank line is the empty record `[]`
(which `csv` yields for blank lines), any other line is split on the
delimiter. -/
def parseLine (delim : Char) (line : List Char) : List String :=
  if line.isEmpty then [] else (splitAux delim line []).map (fun f => String.mk f)

/-- All records of the file content, in order (`list(csv.reader(...))`
in the quote-free fragment). -/
def csvRows (delim : Char) (content : String) : List (List String) :=
  (rawLines content).map (parseLine delim)

/-- Strip a leading byte-order mark (the `utf-8-sig` decoding used by
the `open` call of the source). -/
def stripBOM (s : String) : String :=
  match s.data with
  | c :: rest => if c = Char.ofNat 65279 then String.mk rest else s
  | [] => s

/-- ASCII whitespace as recognized by the Python `str.strip()`. -/
def pySpace (c : Char) : Bool :=
  c = ' ' || c = Char.ofNat 9 || c = Char.ofNat 10 || c = Char.ofNat 13 ||
  c = Char.ofNat 11 || c = Char.ofNat 12

/-- Python `not content.strip()`: the content is empty or whitespace-only. -/
def wsOnly (s : String) : Bool := s.data.all pySpace

/-- The headerless fallback of `readCsvFile` (source lines 349-367 and
372-390): synthesize `Column1..ColumnN` from the width of the first
record, keep every non-empty record (including the first) as a data
row, and skip records that parse to zero fields. -/
def headerlessParse (rows : List (List String)) : List Row × List String × Bool :=
  match rows with
  | [] => ([], [], false)
  | first :: rest =>
    let numColumns := first.length
    let headers := genHeaders numColumns
    (((first :: rest).filter (fun r => !r.isEmpty)).map (mkGenericRow headers numColumns),
     headers, true)

/-- Embedding of `CsvConsolidator.readCsvFile` (source lines 311-397) on
the text content of the file: empty/whitespace-only content fails; otherwise the first
record is taken as the header row (`csv.DictReader`); if it is
non-empty and at least one later non-blank record exists those records
become the data rows keyed by the header; if there are no data rows, or
the first record is blank, the same records are re-parsed headerless. -/
def readCsvFile (delim : Char) (content : String) : List Row × List String × Bool :=
  let c := stripBOM content
  if wsOnly c then ([], [], false)
  else
    match csvRows delim c with
    | [] => ([], [], false)
    | first :: rest =>
      if first.isEmpty then headerlessParse (first :: rest)
      else
        let data := (rest.filter (fun r => !r.isEmpty)).map (mkDictRow first)
        if data.isEmpty then headerlessParse (first :: rest)
        else (data, first, true)

/-- Ingestion including the read boundary: `Option.none` embeds a
read/decode exception, which the `try/except` of the source converts to the
failure outcome `([], [], False)`. -/
def ingestFile (delim : Char) (contents : Option String) :
    List Row × List String × Bool :=
  match contents with
  | Option.none => ([], [], false)
  | some c => readCsvFile delim c

/-- The mutable state of a `CsvConsolidator` run that the
consolidation loop touches. -/
structure ConsState where
  consolidatedData : List Row
  allHeaders : List String
  processedCount : Nat
  errorCount : Nat
  errorFiles : List String

/-- The state set up by `CsvConsolidator.__init__`. -/
def initState : ConsState :=
  { consolidatedData := [], allHeaders := [], processedCount := 0,
    errorCount := 0, errorFiles := [] }

/-- Python `set.update`: add each element not already present
(insertion order kept for determinism of the embedding). -/
def setUpdate (s : List String) (hs : List String) : List String :=
  hs.foldl (fun acc h => if h ∈ acc then acc else acc ++ [h]) s

/-- One iteration of the consolidation loop (source lines 412-426):
on success with data, extend the dataset, union the headers, bump the
processed counter; otherwise bump the error counter and record the
name of the file. -/
def processFile (delim : Char) (st : ConsState) (file : String × String) : ConsState :=
  let res := readCsvFile delim file.2
  if res.2.2 = true ∧ res.1 ≠ [] then
    { consolidatedData := st.consolidatedData ++ res.1,
      allHeaders := setUpdate st.allHeaders res.2.1,
      processedCount := st.processedCount + 1,
      errorCount := st.errorCount,
      errorFiles := st.errorFiles }
  else
    { consolidatedData := st.consolidatedData,
      allHeaders := st.allHeaders,
      processedCount := st.processedCount,
      errorCount := st.errorCount + 1,
      errorFiles := st.errorFiles ++ [file.1] }

/-- Embedding of `CsvConsolidator.consolidateFiles` (source lines 399-439) over the
discovered files given as (name, content) pairs; returns the final
state and `len(self.consolidatedData) > 0`. -/
def consolidateFiles (delim : Char) (files : List (String × String))
    (st : ConsState) : ConsState × Bool :=
  let st1 := files.foldl (processFile delim) st
  (st1, !st1.consolidatedData.isEmpty)

/-- Python truthiness of a row value (`if serialNumber:` and the
short-circuit `or`). -/
def pyTruthy : PyVal → Bool
  | PyVal.str s => s ≠ ""
  | PyVal.none => false
  | PyVal.lst l => l ≠ []

/-- Python `row.get(key)` restricted to truthy values: the value when present
and truthy, otherwise `Option.none` (the Python falsy `None` or empty value). -/
def pyGetTruthy (r : Row) (k : Option String) : Option PyVal :=
  match rowLookup r k with
  | some v => if pyTruthy v then some v else Option.none
  | Option.none => Option.none

/-- The serial-number extraction of `checkDuplicates` (source lines
450-456): `row.get` of `Device Serial Number`, else of `Serial Number`,
else of `DeviceSerialNumber`, kept only when truthy. -/
def getSerial (r : Row) : Option PyVal :=
  match pyGetTruthy r (some "Device Serial Number") with
  | some v => some v
  | Option.none =>
    match pyGetTruthy r (some "Serial Number") with
    | some v => some v
    | Option.none => pyGetTruthy r (some "DeviceSerialNumber")

/-- Deduplicate keeping first occurrences, skipping anything in
`seen`. -/
def dedupKeepFirstAux {α : Type} [DecidableEq α] (seen : List α) : List α → List α
  | [] => []
  | x :: xs =>
    if x ∈ seen then dedupKeepFirstAux seen xs
    else x :: dedupKeepFirstAux (x :: seen) xs

/-- Deduplicate a list keeping the first occurrence of each element. -/
def dedupKeepFirst {α : Type} [DecidableEq α] (l : List α) : List α :=
  dedupKeepFirstAux [] l

/-- Python `collections.Counter(l)` as an association list: each distinct
element (in first-occurrence order) paired with its multiplicity. -/
def pyCounter {α : Type} [DecidableEq α] (l : List α) : List (α × Nat) :=
  (dedupKeepFirst l).map (fun k => (k, l.count k))

/-- Embedding of `CsvConsolidator.checkDuplicates` (source lines 441-464): collect
the truthy serial of each row, count multiplicities, keep the counts
above one, and return their sum minus the number of such entries. -/
def checkDuplicates (data : List Row) : Nat :=
  let serialNumbers := data.filterMap getSerial
  if serialNumbers = [] then 0
  else
    let duplicates := (pyCounter serialNumbers).filter (fun kv => 1 < kv.2)
    (duplicates.map Prod.snd).sum - duplicates.length

/-- The method `checkDuplicates` as a transformer of the consolidator state (the
method reads `self.consolidatedData` and assigns no field). -/
def checkDuplicatesS (st : ConsState) : ConsState × Nat :=
  (st, checkDuplicates st.consolidatedData)

/-- Render a row value as `csv.writer` does: strings verbatim, `None`
as the empty cell, a list via its Python `str` form. -/
def pyStrOfVal : PyVal → String
  | PyVal.str s => s
  | PyVal.none => ""
  | PyVal.lst l =>
    let q := String.mk [Char.ofNat 39]
    "[" ++ String.intercalate ", " (l.map (fun s => q ++ s ++ q)) ++ "]"

/-- Minimal quoting of the `excel` dialect: wrap a field in double
quotes (doubling inner quotes) iff it contains the delimiter, a double
quote, or a line break. -/
def quoteField (delim : Char) (s : String) : String :=
  if s.data.any (fun c => c = delim || c = Char.ofNat 34 ||
      c = Char.ofNat 10 || c = Char.ofNat 13) then
    String.mk (Char.ofNat 34 ::
      (s.data.foldr (fun c acc =>
        if c = Char.ofNat 34 then c :: c :: acc else c :: acc) [Char.ofNat 34]))
  else s

/-- Serialize one output record (without the line terminator). -/
def csvJoin (delim : Char) (fields : List String) : String :=
  String.intercalate (String.mk [delim]) (fields.map (quoteField delim))

/-- The cell `csv.DictWriter` emits for a row and a column:
`rowdict.get(key, restval)` with the default `restval` of `""`. -/
def rowCell (r : Row) (col : String) : String :=
  match rowLookup r (some col) with
  | some v => pyStrOfVal v
  | Option.none => ""

/-- Ordinal (code-point) lexicographic comparison of character lists,
as Python compares strings: the empty list precedes everything, equal
heads defer to the tails, unequal heads compare by code point. -/
def charListLe : List Char → List Char → Bool
  | [], _ => true
  | _ :: _, [] => false
  | a :: as, b :: bs =>
    if a = b then charListLe as bs else decide (a.toNat < b.toNat)

/-- Ordinal string comparison (Python `<=` on `str`). -/
def strLe (a b : String) : Prop := charListLe a.data b.data = true

instance : DecidableRel strLe := fun a b =>
  decidable_of_iff (charListLe a.data b.data = true) Iff.rfl

/-- Python `sorted(set(...))` on strings: distinct elements in ascending
ordinal lexicographic order. -/
def sortStrings (l : List String) : List String :=
  List.insertionSort strLe (dedupKeepFirst l)

/-- The keys of a row that are not among the field names of the writer
(`csv.DictWriter` raises on any such key). -/
def rowExtraKeys (r : Row) (fieldnames : List String) : List (Option String) :=
  (rowKeys r).filter (fun k =>
    match k with
    | some s => !fieldnames.contains s
    | Option.none => true)

/-- The line contents `CsvConsolidator.exportResults` (source lines
486-489) writes: the sorted union of headers as the field names, one
header line, then one line per row in dataset order with empty cells
for missing columns.  `Option.none` embeds the failure outcome (the
`ValueError` that `csv.DictWriter` raises when a row carries a key
outside the field names, caught by the except handler of the method and reported
as a failed save). -/
def exportLines (delim : Char) (allHeaders : List String) (data : List Row) :
    Option (List String) :=
  let fieldnames := sortStrings allHeaders
  if data.all (fun r => (rowExtraKeys r fieldnames).isEmpty) then
    some (csvJoin delim fieldnames ::
      data.map (fun r => csvJoin delim (fieldnames.map (rowCell r))))
  else Option.none

/-- Does a file name start with a dot (`glob` never matches hidden
entries with `*` or `**`)? -/
def startsWithDot (name : String) : Bool :=
  match name.data with
  | c :: _ => c = '.'
  | [] => false

/-- Matching of the pattern `*.csv` as `glob.glob` applies it:
case-sensitive suffix match, hidden names excluded. -/
def matchesCsvName (name : String) : Bool :=
  List.isSuffixOf ['.', 'c', 's', 'v'] name.data && !startsWithDot name

/-- The non-recursive pattern `dir/*.csv`: direct children only. -/
def flatMatch : List String → Bool
  | [n] => matchesCsvName n
  | _ => false

/-- The recursive pattern `dir/**/*.csv` with `recursive=True`:
matches at any depth (including depth one), every traversed directory
component non-hidden. -/
def recMatch : List String → Bool
  | [] => false
  | [n] => matchesCsvName n
  | d :: rest => !startsWithDot d && recMatch rest

/-- The full path of a discovered file as a string (components joined
by the path separator; all candidates share the same root prefix). -/
def pathStr (p : List String) : String := String.intercalate "/" p

/-- Ordering of discovered files: ascending ordinal comparison of the
full path string (`sorted` on the paths). -/
def pathLe (a b : List String) : Prop := strLe (pathStr a) (pathStr b)

instance : DecidableRel pathLe := fun a b =>
  inferInstanceAs (Decidable (strLe (pathStr a) (pathStr b)))

/-- Embedding of `CsvConsolidator.findCsvFiles` (source lines 283-298) over the
file system given as the list of file paths under the root: filter by
the glob pattern selected by the recursion flag, then sort by full
path. -/
def findCsvFiles (fs : List (List String)) (recursive : Bool) : List (List String) :=
  List.insertionSort pathLe
    (fs.filter (fun p => if recursive then recMatch p else flatMatch p))

/-- Modelled from the spec wording of §4.4 (refinement target for the
duplicate-count arithmetic): the first non-empty value among the three
candidate keys, tried in fixed priority order. -/
def specExtract (r : Row) : Option PyVal :=
  (([some "Device Serial Number", some "Serial Number",
     some "DeviceSerialNumber"].map (pyGetTruthy r)).filterMap id).head?

/-- Modelled from the spec wording of §4.4 (refinement target): the
sum of the occurrence counts of all identifiers occurring at least
twice, minus the number of distinct such identifiers. -/
def specDupCount (ids : List PyVal) : Nat :=
  (ids.toFinset.filter (fun k => 2 ≤ ids.count k)).sum (fun k => ids.count k)
  - (ids.toFinset.filter (fun k => 2 ≤ ids.count k)).card

/-- The two ragged tails of a `csv.DictReader` row: the rest-key entry
for excess values, or the restval placeholders for missing columns. -/
def raggedTail (fieldnames row : List String) : Row :=
  if fieldnames.length < row.length then
    [((Option.none : Option String), PyVal.lst (row.drop fieldnames.length))]
  else (fieldnames.drop row.length).map
    (fun k => ((some k : Option String), PyVal.none))

/-- The zipped header/value part of a `csv.DictReader` row. -/
def zipPart (fieldnames row : List String) : Row :=
  (fieldnames.zip row).map (fun p => ((some p.1 : Option String), PyVal.str p.2))

/-- The rows whose serial numbers are `A, A, B, C, C, C` (the worked
example of the duplicate-count arithmetic in the spec). -/
def dupExampleRows : List Row :=
  ["A", "A", "B", "C", "C", "C"].map
    (fun s => [((some "Device Serial Number" : Option String), PyVal.str s)])

/-- The row-key invariant maintained by the consolidation loop: every
key of every consolidated row is either the `csv.DictReader` rest key
`None` or one of the accumulated headers. -/
def KeysInv (st : ConsState) : Prop :=
  ∀ r ∈ st.consolidatedData, ∀ k ∈ rowKeys r,
    k = Option.none ∨ ∃ c ∈ st.allHeaders, k = some c

/-! ### Order facts for the sorting relations -/

theorem charListLe_total (x : List Char) :
    ∀ y : List Char, charListLe x y = true ∨ charListLe y x = true := by
  induction x with
  | nil => intro y; left; rfl
  | cons a as ih =>
    intro y
    cases y with
    | nil => right; rfl
    | cons b bs =>
      by_cases hab : a = b
      · subst hab
        simp only [charListLe, if_pos rfl]
        exact ih bs
      · have hba : b ≠ a := fun h => hab h.symm
        have hne : a.toNat ≠ b.toNat := fun h => hab (Char.ext (UInt32.toNat.inj h))
        simp only [charListLe, if_neg hab, if_neg hba, decide_eq_true_eq]
        omega

theorem charListLe_trans (x : List Char) :
    ∀ y z : List Char, charListLe x y = true → charListLe y z = true →
      charListLe x z = true := by
  induction x with
  | nil => intro y z _ _; rfl
  | cons a as ih =>
    intro y z hxy hyz
    cases y with
    | nil => simp [charListLe] at hxy
    | cons b bs =>
      cases z with
      | nil => simp [charListLe] at hyz
      | cons c cs =>
        by_cases hab : a = b
        · subst hab
          simp only [charListLe, if_pos rfl] at hxy
          by_cases hbc : a = c
          · subst hbc
            simp only [charListLe, if_pos rfl] at hyz ⊢
            exact ih bs cs hxy hyz
          · simpa only [charListLe, if_neg hbc] using hyz
        · simp only [charListLe, if_neg hab, decide_eq_true_eq] at hxy
          by_cases hbc : b = c
          · subst hbc
            simpa only [charListLe, if_neg hab, decide_eq_true_eq] using hxy
          · simp only [charListLe, if_neg hbc, decide_eq_true_eq] at hyz
            have hac : a ≠ c := by
              intro h
              subst h
              omega
            simp only [charListLe, if_neg hac, decide_eq_true_eq]
            omega

instance : IsTotal String strLe := ⟨fun a b => charListLe_total a.data b.data⟩

instance : IsTrans String strLe :=
  ⟨fun a b c hab hbc => charListLe_trans a.data b.data c.data hab hbc⟩

instance : IsTotal (List String) pathLe :=
  ⟨fun a b => charListLe_total (pathStr a).data (pathStr b).data⟩

instance : IsTrans (List String) pathLe :=
  ⟨fun _ _ _ h1 h2 => charListLe_trans _ _ _ h1 h2⟩


/-! ### Dictionary lemmas -/

theorem mem_dictInsert {d : Row} {k : Option String} {v : PyVal} {x : Option String × PyVal}
    (h : x ∈ dictInsert d k v) : x ∈ d ∨ x = (k, v) := by
  induction d with
  | nil => simp [dictInsert] at h; right; exact h
  | cons kv rest ih =>
    obtain ⟨k0, v0⟩ := kv
    by_cases hk : k0 = k
    · subst hk
      simp [dictInsert] at h
      rcases h with h | h
      · right; simp [h]
      · left; simp [h]
    · simp [dictInsert, hk] at h
      rcases h with h | h
      · left; simp [h]
      · rcases ih h with h2 | h2
        · left; simp [h2]
        · right; exact h2

theorem rowKeys_dictInsert_sub {d : Row} {k k' : Option String} {v : PyVal}
    (h : k' ∈ rowKeys (dictInsert d k v)) : k' ∈ rowKeys d ∨ k' = k := by
  rcases List.mem_map.mp h with ⟨x, hx, hfst⟩
  rcases mem_dictInsert hx with h2 | h2
  · left; exact hfst ▸ List.mem_map_of_mem Prod.fst h2
  · right; subst h2; exact hfst.symm ▸ rfl

theorem dictInsert_of_notMem {d : Row} {k : Option String} (v : PyVal)
    (h : k ∉ rowKeys d) : dictInsert d k v = d ++ [(k, v)] := by
  induction d with
  | nil => rfl
  | cons kv rest ih =>
    obtain ⟨k0, v0⟩ := kv
    have hk : k0 ≠ k := by
      intro he; exact h (by simp [rowKeys, he])
    have hrest : k ∉ rowKeys rest := by
      intro he; exact h (by simp [rowKeys] at he ⊢; right; exact he)
    simp [dictInsert, hk, ih hrest]

theorem foldl_dictInsert_append (pairs : List (Option String × PyVal)) :
    ∀ d : Row, (∀ k ∈ pairs.map Prod.fst, k ∉ rowKeys d) →
    (pairs.map Prod.fst).Nodup →
    pairs.foldl (fun d kv => dictInsert d kv.1 kv.2) d = d ++ pairs := by
  induction pairs with
  | nil => intro d _ _; simp
  | cons kv rest ih =>
    intro d hfresh hnd
    obtain ⟨k, v⟩ := kv
    have hk : k ∉ rowKeys d := hfresh k (by simp)
    have step : dictInsert d k v = d ++ [(k, v)] := dictInsert_of_notMem v hk
    simp only [List.foldl_cons, step]
    have hnd' : (rest.map Prod.fst).Nodup := by
      simp only [List.map_cons, List.nodup_cons] at hnd; exact hnd.2
    have hknotin : k ∉ rest.map Prod.fst := by
      simp only [List.map_cons, List.nodup_cons] at hnd; exact hnd.1
    have hfresh' : ∀ k' ∈ rest.map Prod.fst, k' ∉ rowKeys (d ++ [(k, v)]) := by
      intro k' hk' hmem
      simp only [rowKeys, List.map_append] at hmem
      rcases List.mem_append.mp hmem with h | h
      · exact hfresh k' (by simp [hk']) h
      · simp at h; subst h; exact hknotin hk'
    rw [ih (d ++ [(k, v)]) hfresh' hnd']
    simp

theorem dictOfPairs_eq_self {pairs : List (Option String × PyVal)}
    (h : (pairs.map Prod.fst).Nodup) : dictOfPairs pairs = pairs := by
  have := foldl_dictInsert_append pairs [] (by intro k _ hk; simp [rowKeys] at hk) h
  simpa [dictOfPairs] using this

theorem restval_foldl_eq (ks : List String) :
    ∀ d : Row, (∀ k ∈ ks, (some k : Option String) ∉ rowKeys d) → ks.Nodup →
    ks.foldl (fun d k => dictInsert d (some k) PyVal.none) d
      = d ++ ks.map (fun k => ((some k : Option String), PyVal.none)) := by
  induction ks with
  | nil => intro d _ _; simp
  | cons k rest ih =>
    intro d hfresh hnd
    have hk : (some k : Option String) ∉ rowKeys d := hfresh k (by simp)
    have step := dictInsert_of_notMem PyVal.none hk
    simp only [List.foldl_cons, step]
    have hnd' : rest.Nodup := (List.nodup_cons.mp hnd).2
    have hknotin : k ∉ rest := (List.nodup_cons.mp hnd).1
    have hfresh' : ∀ k' ∈ rest, (some k' : Option String) ∉ rowKeys (d ++ [(some k, PyVal.none)]) := by
      intro k' hk' hmem
      simp only [rowKeys, List.map_append] at hmem
      rcases List.mem_append.mp hmem with h | h
      · exact hfresh k' (by simp [hk']) h
      · simp at h; subst h; exact hknotin hk'
    rw [ih (d ++ [(some k, PyVal.none)]) hfresh' hnd']
    simp

theorem map_fst_zip_take {α β : Type} (l₁ : List α) (l₂ : List β) :
    (l₁.zip l₂).map Prod.fst = l₁.take l₂.length := by
  induction l₁ generalizing l₂ with
  | nil => simp
  | cons x xs ih =>
    cases l₂ with
    | nil => simp
    | cons y ys => simp [ih]

theorem zipPart_keys (fieldnames row : List String) :
    rowKeys (zipPart fieldnames row) = (fieldnames.take row.length).map some := by
  simp only [zipPart, rowKeys, List.map_map]
  have h1 : (Prod.fst ∘ fun p : String × String =>
      ((some p.1 : Option String), PyVal.str p.2)) = (some ∘ Prod.fst) := rfl
  rw [h1, ← List.map_map, map_fst_zip_take]

theorem zipPart_keys_nodup {fieldnames : List String} (row : List String)
    (h : fieldnames.Nodup) : (rowKeys (zipPart fieldnames row)).Nodup := by
  rw [zipPart_keys]
  exact ((List.take_sublist _ _).nodup h).map (Option.some_injective String)

theorem mkDictRow_eq {fieldnames : List String} (row : List String)
    (h : fieldnames.Nodup) :
    mkDictRow fieldnames row = zipPart fieldnames row ++ raggedTail fieldnames row := by
  have hbase : dictOfPairs
      ((fieldnames.zip row).map (fun p => ((some p.1 : Option String), PyVal.str p.2)))
      = zipPart fieldnames row := by
    apply dictOfPairs_eq_self
    have := zipPart_keys_nodup row h
    simpa [zipPart, rowKeys] using this
  by_cases hlt : fieldnames.length < row.length
  · simp only [mkDictRow, hbase, if_pos hlt, raggedTail]
    apply dictInsert_of_notMem
    rw [zipPart_keys]
    intro hmem
    rcases List.mem_map.mp hmem with ⟨x, _, hx⟩
    exact Option.noConfusion hx
  · by_cases hgt : row.length < fieldnames.length
    · simp only [mkDictRow, hbase, if_neg hlt, if_pos hgt, raggedTail]
      apply restval_foldl_eq
      · intro k hk hmem
        rw [zipPart_keys] at hmem
        rcases List.mem_map.mp hmem with ⟨x, hx, hxeq⟩
        have : x = k := Option.some_injective _ hxeq
        subst this
        have hdisj := @List.disjoint_take_drop String row.length row.length fieldnames h le_rfl
        exact hdisj hx hk
      · exact (List.drop_sublist _ _).nodup h
    · have heq : fieldnames.length = row.length := le_antisymm (not_lt.mp hgt) (not_lt.mp hlt)
      simp only [mkDictRow, hbase, if_neg hlt, if_neg hgt, raggedTail]
      rw [← heq, List.drop_length]
      simp

theorem rowKeys_mkDictRow {fieldnames : List String} (row : List String)
    (h : fieldnames.Nodup) :
    rowKeys (mkDictRow fieldnames row)
      = fieldnames.map some
        ++ (if fieldnames.length < row.length then [Option.none] else []) := by
  rw [mkDictRow_eq row h]
  simp only [rowKeys, List.map_append]
  have hz : rowKeys (zipPart fieldnames row) = (fieldnames.take row.length).map some :=
    zipPart_keys fieldnames row
  simp only [rowKeys] at hz
  rw [hz]
  by_cases hlt : fieldnames.length < row.length
  · rw [List.take_of_length_le (le_of_lt hlt)]
    simp [raggedTail, hlt]
  · simp only [raggedTail, if_neg hlt]
    have hcomp : (Prod.fst ∘ fun k : String => ((some k : Option String), PyVal.none))
        = some := rfl
    simp only [List.map_map, hcomp, ← List.map_append, List.take_append_drop]
    simp

theorem mkGenericRow_eq {headers : List String} (n : Nat) (row : List String)
    (h : headers.Nodup) :
    mkGenericRow headers n row
      = (headers.zip (row.take n)).map
          (fun p => ((some p.1 : Option String), PyVal.str p.2)) := by
  apply dictOfPairs_eq_self
  have := zipPart_keys_nodup (row.take n) h
  simpa [zipPart, rowKeys] using this

/-! ### Unconditional key-subset lemmas (no `Nodup` assumption) -/

theorem rowKeys_foldl_ins_sub (pairs : List (Option String × PyVal)) :
    ∀ (d : Row) (k : Option String),
    k ∈ rowKeys (pairs.foldl (fun d kv => dictInsert d kv.1 kv.2) d) →
    k ∈ rowKeys d ∨ k ∈ pairs.map Prod.fst := by
  induction pairs with
  | nil => intro d k h; left; exact h
  | cons kv rest ih =>
    intro d k h
    simp only [List.foldl_cons] at h
    rcases ih _ k h with h2 | h2
    · rcases rowKeys_dictInsert_sub h2 with h3 | h3
      · left; exact h3
      · right; simp [h3]
    · right; simp [h2]

theorem rowKeys_dictOfPairs_sub {pairs : List (Option String × PyVal)}
    {k : Option String} (h : k ∈ rowKeys (dictOfPairs pairs)) :
    k ∈ pairs.map Prod.fst := by
  rcases rowKeys_foldl_ins_sub pairs [] k h with h2 | h2
  · simp [rowKeys] at h2
  · exact h2

theorem rowKeys_restval_foldl_sub (ks : List String) :
    ∀ (d : Row) (k : Option String),
    k ∈ rowKeys (ks.foldl (fun d k => dictInsert d (some k) PyVal.none) d) →
    k ∈ rowKeys d ∨ ∃ h ∈ ks, k = some h := by
  induction ks with
  | nil => intro d k h; left; exact h
  | cons k0 rest ih =>
    intro d k h
    simp only [List.foldl_cons] at h
    rcases ih _ k h with h2 | h2
    · rcases rowKeys_dictInsert_sub h2 with h3 | h3
      · left; exact h3
      · right; exact ⟨k0, by simp, h3⟩
    · right; rcases h2 with ⟨h0, hh0, he⟩; exact ⟨h0, by simp [hh0], he⟩

theorem mkDictRow_keys_sub {fieldnames row : List String} {k : Option String}
    (h : k ∈ rowKeys (mkDictRow fieldnames row)) :
    k = Option.none ∨ ∃ n ∈ fieldnames, k = some n := by
  have hbase : ∀ k', k' ∈ rowKeys (dictOfPairs
      ((fieldnames.zip row).map (fun p => ((some p.1 : Option String), PyVal.str p.2)))) →
      ∃ n ∈ fieldnames, k' = some n := by
    intro k' hk'
    have h1 := rowKeys_dictOfPairs_sub hk'
    simp only [List.map_map] at h1
    rcases List.mem_map.mp h1 with ⟨p, hp, hpe⟩
    refine ⟨p.1, ?_, hpe.symm ▸ rfl⟩
    have h2 : p.1 ∈ (fieldnames.zip row).map Prod.fst := List.mem_map_of_mem Prod.fst hp
    rw [map_fst_zip_take] at h2
    exact List.take_subset _ _ h2
  by_cases hlt : fieldnames.length < row.length
  · simp only [mkDictRow, if_pos hlt] at h
    rcases rowKeys_dictInsert_sub h with h2 | h2
    · right; exact hbase _ h2
    · left; exact h2
  · by_cases hgt : row.length < fieldnames.length
    · simp only [mkDictRow, if_neg hlt, if_pos hgt] at h
      rcases rowKeys_restval_foldl_sub _ _ _ h with h2 | h2
      · right; exact hbase _ h2
      · right
        rcases h2 with ⟨n, hn, he⟩
        exact ⟨n, List.drop_subset _ _ hn, he⟩
    · simp only [mkDictRow, if_neg hlt, if_neg hgt] at h
      right; exact hbase _ h

theorem mkGenericRow_keys_sub {headers : List String} {n : Nat} {row : List String}
    {k : Option String} (h : k ∈ rowKeys (mkGenericRow headers n row)) :
    ∃ c ∈ headers, k = some c := by
  have h1 := rowKeys_dictOfPairs_sub h
  simp only [List.map_map] at h1
  rcases List.mem_map.mp h1 with ⟨p, hp, hpe⟩
  refine ⟨p.1, ?_, hpe.symm ▸ rfl⟩
  have h2 : p.1 ∈ (headers.zip (row.take n)).map Prod.fst := List.mem_map_of_mem Prod.fst hp
  rw [map_fst_zip_take] at h2
  exact List.take_subset _ _ h2

/-! ### Key-subset through the ingestor -/

theorem headerlessParse_keys {rows : List (List String)} {r : Row}
    (hr : r ∈ (headerlessParse rows).1) {k : Option String} (hk : k ∈ rowKeys r) :
    ∃ c ∈ (headerlessParse rows).2.1, k = some c := by
  cases rows with
  | nil => simp [headerlessParse] at hr
  | cons first rest =>
    simp only [headerlessParse] at hr ⊢
    rcases List.mem_map.mp hr with ⟨v, _, hveq⟩
    subst hveq
    exact mkGenericRow_keys_sub hk

theorem readCsvFile_keys {delim : Char} {content : String}
    {data : List Row} {headers : List String} {success : Bool}
    (h : readCsvFile delim content = (data, headers, success))
    {r : Row} (hr : r ∈ data) {k : Option String} (hk : k ∈ rowKeys r) :
    k = Option.none ∨ ∃ c ∈ headers, k = some c := by
  simp only [readCsvFile] at h
  by_cases hws : wsOnly (stripBOM content) = true
  · rw [if_pos hws] at h
    injection h with h1 h2
    subst h1; simp at hr
  · rw [if_neg hws] at h
    cases hrows : csvRows delim (stripBOM content) with
    | nil =>
      rw [hrows] at h
      injection h with h1 h2
      subst h1; simp at hr
    | cons first rest =>
      rw [hrows] at h
      simp only at h
      by_cases hfe : first.isEmpty = true
      · rw [if_pos hfe] at h
        have hr' : r ∈ (headerlessParse (first :: rest)).1 := by rw [h]; exact hr
        rcases headerlessParse_keys hr' hk with ⟨c, hc, he⟩
        right
        refine ⟨c, ?_, he⟩
        have h21 : (headerlessParse (first :: rest)).2.1 = headers := by rw [h]
        rwa [h21] at hc
      · rw [if_neg hfe] at h
        by_cases hde :
            ((rest.filter (fun v => !v.isEmpty)).map (mkDictRow first)).isEmpty = true
        · rw [if_pos hde] at h
          have hr' : r ∈ (headerlessParse (first :: rest)).1 := by rw [h]; exact hr
          rcases headerlessParse_keys hr' hk with ⟨c, hc, he⟩
          right
          refine ⟨c, ?_, he⟩
          have h21 : (headerlessParse (first :: rest)).2.1 = headers := by rw [h]
          rwa [h21] at hc
        · rw [if_neg hde] at h
          injection h with h1 h2
          injection h2 with h2a h2b
          subst h1
          subst h2a
          rcases List.mem_map.mp hr with ⟨v, _, hveq⟩
          subst hveq
          exact mkDictRow_keys_sub hk

/-! ### Header-set union lemmas -/

theorem mem_setUpdate_left {a : String} (hs : List String) :
    ∀ s : List String, a ∈ s → a ∈ setUpdate s hs := by
  induction hs with
  | nil => intro s h; exact h
  | cons h0 rest ih =>
    intro s hmem
    simp only [setUpdate, List.foldl_cons]
    by_cases hin : h0 ∈ s
    · rw [if_pos hin]; exact ih s hmem
    · rw [if_neg hin]
      exact ih _ (List.mem_append_left _ hmem)

theorem mem_setUpdate_right {a : String} {hs : List String} (hmem : a ∈ hs) :
    ∀ s : List String, a ∈ setUpdate s hs := by
  induction hs with
  | nil => simp at hmem
  | cons h0 rest ih =>
    intro s
    simp only [setUpdate, List.foldl_cons]
    rcases List.mem_cons.mp hmem with he | hr
    · subst he
      by_cases hin : a ∈ s
      · rw [if_pos hin]
        exact mem_setUpdate_left rest s hin
      · rw [if_neg hin]
        exact mem_setUpdate_left rest _ (by simp)
    · by_cases hin : h0 ∈ s
      · rw [if_pos hin]; exact ih hr s
      · rw [if_neg hin]; exact ih hr _

theorem processFile_inv {delim : Char} {st : ConsState} {file : String × String}
    (h : KeysInv st) : KeysInv (processFile delim st file) := by
  unfold processFile
  by_cases hc : (readCsvFile delim file.2).2.2 = true ∧ (readCsvFile delim file.2).1 ≠ []
  · rw [if_pos hc]
    intro r hr k hk
    simp only at hr
    rcases List.mem_append.mp hr with hold | hnew
    · rcases h r hold k hk with he | ⟨c, hc1, he⟩
      · left; exact he
      · right; exact ⟨c, mem_setUpdate_left _ _ hc1, he⟩
    · have hread : readCsvFile delim file.2
          = ((readCsvFile delim file.2).1, (readCsvFile delim file.2).2.1,
             (readCsvFile delim file.2).2.2) := rfl
      rcases readCsvFile_keys hread hnew hk with he | ⟨c, hc1, he⟩
      · left; exact he
      · right; exact ⟨c, mem_setUpdate_right hc1 _, he⟩
  · rw [if_neg hc]
    intro r hr k hk
    exact h r hr k hk

theorem consolidate_inv {delim : Char} (files : List (String × String)) :
    ∀ st : ConsState, KeysInv st → KeysInv (files.foldl (processFile delim) st) := by
  induction files with
  | nil => intro st h; exact h
  | cons f rest ih =>
    intro st h
    exact ih _ (processFile_inv h)

/-! ### Deduplication and counter lemmas -/

theorem mem_dedupKeepFirstAux {α : Type} [DecidableEq α] {x : α} (l : List α) :
    ∀ seen : List α, x ∈ dedupKeepFirstAux seen l ↔ x ∈ l ∧ x ∉ seen := by
  induction l with
  | nil => intro seen; simp [dedupKeepFirstAux]
  | cons y ys ih =>
    intro seen
    by_cases hy : y ∈ seen
    · simp only [dedupKeepFirstAux, if_pos hy, ih]
      constructor
      · rintro ⟨h1, h2⟩; exact ⟨by simp [h1], h2⟩
      · rintro ⟨h1, h2⟩
        rcases List.mem_cons.mp h1 with he | hm
        · subst he; exact absurd hy h2
        · exact ⟨hm, h2⟩
    · simp only [dedupKeepFirstAux, if_neg hy]
      constructor
      · intro h1
        rcases List.mem_cons.mp h1 with he | hm
        · subst he; exact ⟨by simp, hy⟩
        · rcases (ih (y :: seen)).mp hm with ⟨h2, h3⟩
          exact ⟨by simp [h2], fun hc => h3 (by simp [hc])⟩
      · rintro ⟨h1, h2⟩
        rcases List.mem_cons.mp h1 with he | hm
        · subst he; simp
        · by_cases hxy : x = y
          · subst hxy; simp
          · exact List.mem_cons_of_mem _
              ((ih (y :: seen)).mpr ⟨hm, by simp [hxy, h2]⟩)

theorem nodup_dedupKeepFirstAux {α : Type} [DecidableEq α] (l : List α) :
    ∀ seen : List α, (dedupKeepFirstAux seen l).Nodup := by
  induction l with
  | nil => intro seen; simp [dedupKeepFirstAux]
  | cons y ys ih =>
    intro seen
    by_cases hy : y ∈ seen
    · simp only [dedupKeepFirstAux, if_pos hy]; exact ih seen
    · simp only [dedupKeepFirstAux, if_neg hy]
      refine List.nodup_cons.mpr ⟨?_, ih (y :: seen)⟩
      intro hc
      exact ((mem_dedupKeepFirstAux ys (y :: seen)).mp hc).2 (by simp)

theorem mem_dedupKeepFirst {α : Type} [DecidableEq α] {x : α} {l : List α} :
    x ∈ dedupKeepFirst l ↔ x ∈ l := by
  simp [dedupKeepFirst, mem_dedupKeepFirstAux]

theorem nodup_dedupKeepFirst {α : Type} [DecidableEq α] (l : List α) :
    (dedupKeepFirst l).Nodup := nodup_dedupKeepFirstAux l []

theorem toFinset_dedupKeepFirst {α : Type} [DecidableEq α] (l : List α) :
    (dedupKeepFirst l).toFinset = l.toFinset := by
  ext a
  simp [List.mem_toFinset, mem_dedupKeepFirst]

theorem checkDuplicates_eq_specDupCount (data : List Row) :
    checkDuplicates data = specDupCount (data.filterMap getSerial) := by
  set s := data.filterMap getSerial with hs
  by_cases hnil : s = []
  · simp [checkDuplicates, ← hs, hnil, specDupCount]
  · simp only [checkDuplicates, ← hs, if_neg hnil]
    set L := (dedupKeepFirst s).filter (fun k => decide (1 < s.count k)) with hL
    have hfm : (pyCounter s).filter (fun kv => decide (1 < kv.2))
        = L.map (fun k => (k, s.count k)) := by
      rw [pyCounter, hL]
      rw [List.filter_map (fun k => (k, s.count k)) (dedupKeepFirst s)]
      rfl
    have hLnd : L.Nodup := (nodup_dedupKeepFirst s).filter _
    have hLfin : L.toFinset = s.toFinset.filter (fun k => 2 ≤ s.count k) := by
      rw [hL, List.toFinset_filter, toFinset_dedupKeepFirst]
      apply Finset.filter_congr
      intro x _
      simp only [decide_eq_true_eq]
      omega
    have hsum : ((pyCounter s).filter (fun kv => decide (1 < kv.2))).map Prod.snd
        = L.map (fun k => s.count k) := by
      rw [hfm, List.map_map]
      rfl
    have hlen : ((pyCounter s).filter (fun kv => decide (1 < kv.2))).length = L.length := by
      rw [hfm, List.length_map]
    rw [hsum, hlen, specDupCount, ← hLfin, List.sum_toFinset _ hLnd,
      List.toFinset_card_of_nodup hLnd]

/-! ### Case equations for the ingestor -/

theorem readCsvFile_header_data {delim : Char} {content : String}
    {first : List String} {rest : List (List String)}
    (h0 : wsOnly (stripBOM content) = false)
    (h1 : csvRows delim (stripBOM content) = first :: rest)
    (h2 : first ≠ [])
    (h3 : rest.filter (fun v => !v.isEmpty) ≠ []) :
    readCsvFile delim content
      = ((rest.filter (fun v => !v.isEmpty)).map (mkDictRow first), first, true) := by
  have h2b : first.isEmpty = false := by
    cases first with
    | nil => exact absurd rfl h2
    | cons a l => rfl
  have h3b : ((rest.filter (fun v => !v.isEmpty)).map (mkDictRow first)).isEmpty = false := by
    cases hm : rest.filter (fun v => !v.isEmpty) with
    | nil => exact absurd hm h3
    | cons a l => rfl
  simp only [readCsvFile, h0, Bool.false_eq_true, if_false, h1, h2b, h3b]

theorem readCsvFile_header_no_data {delim : Char} {content : String}
    {first : List String} {rest : List (List String)}
    (h0 : wsOnly (stripBOM content) = false)
    (h1 : csvRows delim (stripBOM content) = first :: rest)
    (h2 : first ≠ [])
    (h3 : rest.filter (fun v => !v.isEmpty) = []) :
    readCsvFile delim content
      = ([mkGenericRow (genHeaders first.length) first.length first],
         genHeaders first.length, true) := by
  have h2b : first.isEmpty = false := by
    cases first with
    | nil => exact absurd rfl h2
    | cons a l => rfl
  have h3b : ((rest.filter (fun v => !v.isEmpty)).map (mkDictRow first)).isEmpty = true := by
    rw [h3]; rfl
  have hfil : (first :: rest).filter (fun v => !v.isEmpty) = [first] := by
    rw [List.filter_cons, if_pos (by rw [h2b]; rfl), h3]
  simp only [readCsvFile, h0, Bool.false_eq_true, if_false, h1, h2b, h3b,
    headerlessParse, hfil, List.map_cons, List.map_nil]
  simp

theorem getSerial_eq_specExtract (r : Row) : getSerial r = specExtract r := by
  unfold getSerial specExtract
  cases h1 : pyGetTruthy r (some "Device Serial Number") with
  | some v => simp [h1]
  | none =>
    cases h2 : pyGetTruthy r (some "Serial Number") with
    | some v => simp [h1, h2]
    | none =>
      cases h3 : pyGetTruthy r (some "DeviceSerialNumber") with
      | some v => simp [h1, h2, h3]
      | none => simp [h1, h2, h3]

/-- Claim C1: `checkDuplicates` extracts the identifier of each row by
trying `Device Serial Number`, `Serial Number`, `DeviceSerialNumber`
in that order, first truthy value wins and rows with no such value
contribute nothing; it returns the sum of the occurrence counts of
the identifiers occurring at least twice minus the number of distinct
such identifiers; on identifiers `A, A, B, C, C, C` that is `3`, and
it is `0` when no row carries a recognized identifier. -/
theorem checkDuplicates_correct :
    (∀ data : List Row, checkDuplicates data = specDupCount (data.filterMap getSerial))
    ∧ (∀ r : Row, getSerial r = specExtract r)
    ∧ (∀ data : List Row, data.filterMap getSerial = [] → checkDuplicates data = 0)
    ∧ checkDuplicates dupExampleRows = 3 := by
  refine ⟨checkDuplicates_eq_specDupCount, getSerial_eq_specExtract, ?_, by decide⟩
  intro data h
  simp [checkDuplicates, h]

/-- Witness for the hypothesis-bearing conjunct of C1 at a concrete input:
no recognized identifier yields a zero duplicate count. -/
theorem checkDuplicates_correct_witness :
    checkDuplicates [[((some "Model" : Option String), PyVal.str "Laptop")]] = 0 :=
  checkDuplicates_correct.2.2.1
    [[((some "Model" : Option String), PyVal.str "Laptop")]] (by decide)

/-- Claim C2, counterexample.  The claim states that a data row longer
than the header has its excess values dropped with no extra key, and
that a shorter row leaves the missing trailing columns absent.  On
`"A,B\n1,2,3"` the reader instead stores the excess under the rest key
`None` (an extra key), and on `"A,B\n1"` the missing column `B` is
present with the placeholder `None`. -/
theorem readCsvFile_ragged_counterexample :
    readCsvFile ',' "A,B\n1,2,3"
      = ([[((some "A" : Option String), PyVal.str "1"), (some "B", PyVal.str "2"),
           (Option.none, PyVal.lst ["3"])]], ["A", "B"], true)
    ∧ readCsvFile ',' "A,B\n1"
      = ([[((some "A" : Option String), PyVal.str "1"), (some "B", PyVal.none)]],
         ["A", "B"], true)
    ∧ (Option.none : Option String) ∈ rowKeys
        [((some "A" : Option String), PyVal.str "1"), (some "B", PyVal.str "2"),
         (Option.none, PyVal.lst ["3"])]
    ∧ (some "B" : Option String) ∈ rowKeys
        [((some "A" : Option String), PyVal.str "1"), (some "B", PyVal.none)] := by
  decide

/-- Claim C2, amended: for a file whose header parse yields distinct
column names and at least one data row, the rows are the data records
keyed by the header; a record with more values than the header keeps
the excess values as a list under the extra rest key `None`, and a
record with fewer values carries every missing trailing column as a
present key with the placeholder value `None`. -/
theorem readCsvFile_ragged_amended :
    (∀ (delim : Char) (content : String) (first : List String)
       (rest : List (List String)),
      wsOnly (stripBOM content) = false →
      csvRows delim (stripBOM content) = first :: rest →
      first ≠ [] →
      rest.filter (fun v => !v.isEmpty) ≠ [] →
      readCsvFile delim content
        = ((rest.filter (fun v => !v.isEmpty)).map (mkDictRow first), first, true))
    ∧ (∀ (fieldnames row : List String), fieldnames.Nodup →
        mkDictRow fieldnames row = zipPart fieldnames row ++ raggedTail fieldnames row)
    ∧ (∀ (fieldnames row : List String), fieldnames.Nodup →
        rowKeys (mkDictRow fieldnames row)
          = fieldnames.map some
            ++ (if fieldnames.length < row.length then [Option.none] else []))
    ∧ (∀ (fieldnames row : List String), fieldnames.Nodup →
        fieldnames.length < row.length →
        ((Option.none : Option String), PyVal.lst (row.drop fieldnames.length))
          ∈ mkDictRow fieldnames row)
    ∧ (∀ (fieldnames row : List String), fieldnames.Nodup →
        ∀ c ∈ fieldnames.drop row.length,
        ((some c : Option String), PyVal.none) ∈ mkDictRow fieldnames row) := by
  refine ⟨fun delim content first rest h0 h1 h2 h3 =>
      readCsvFile_header_data h0 h1 h2 h3,
    fun fieldnames row h => mkDictRow_eq row h,
    fun fieldnames row h => rowKeys_mkDictRow row h, ?_, ?_⟩
  · intro fieldnames row hnd hlt
    rw [mkDictRow_eq row hnd]
    apply List.mem_append_right
    simp [raggedTail, hlt]
  · intro fieldnames row hnd c hc
    rw [mkDictRow_eq row hnd]
    apply List.mem_append_right
    have hnlt : ¬ fieldnames.length < row.length := by
      intro hlt
      rw [List.drop_eq_nil_of_le (le_of_lt hlt)] at hc
      simp at hc
    simp only [raggedTail, if_neg hnlt]
    exact List.mem_map_of_mem _ hc

/-- Witness for the amended theorem of C2 at `"A,B\n1,2,3"` and
`"A,B\n1"`. -/
theorem readCsvFile_ragged_amended_witness :
    readCsvFile ',' "A,B\n1,2,3"
      = (([["1", "2", "3"]].filter (fun v => !v.isEmpty)).map (mkDictRow ["A", "B"]),
         ["A", "B"], true)
    ∧ ((Option.none : Option String), PyVal.lst ["3"]) ∈ mkDictRow ["A", "B"] ["1", "2", "3"]
    ∧ ((some "B" : Option String), PyVal.none) ∈ mkDictRow ["A", "B"] ["1"] :=
  ⟨readCsvFile_ragged_amended.1 ',' "A,B\n1,2,3" ["A", "B"] [["1", "2", "3"]]
      (by decide) (by decide) (by decide) (by decide),
   readCsvFile_ragged_amended.2.2.2.1 ["A", "B"] ["1", "2", "3"] (by decide) (by decide),
   readCsvFile_ragged_amended.2.2.2.2 ["A", "B"] ["1"] (by decide) "B" (by decide)⟩

/-- Claim C3, counterexample.  The claimed invariant says every key of
every consolidated row lies in `allHeaders`.  Consolidating the single
file `"A,B\n1,2,3"` yields a row carrying the rest key `None`, which is
not among the unioned headers `["A", "B"]`. -/
theorem consolidate_keys_counterexample :
    (consolidateFiles ',' [("f.csv", "A,B\n1,2,3")] initState).1.consolidatedData
      = [[((some "A" : Option String), PyVal.str "1"), (some "B", PyVal.str "2"),
          (Option.none, PyVal.lst ["3"])]]
    ∧ (consolidateFiles ',' [("f.csv", "A,B\n1,2,3")] initState).1.allHeaders
      = ["A", "B"]
    ∧ (Option.none : Option String) ∈ rowKeys
        [((some "A" : Option String), PyVal.str "1"), (some "B", PyVal.str "2"),
         (Option.none, PyVal.lst ["3"])]
    ∧ (Option.none : Option String) ∉ (["A", "B"].map (some : String → Option String)) := by
  decide

/-- Claim C3, amended: after `consolidateFiles` completes, every key of
every row of the consolidated dataset is either an element of the
unioned header set (`allHeaders`) or the `csv.DictReader` rest key
`None` — the rest key is the single key the exporter can receive that
is outside the header union. -/
theorem consolidate_keys_amended (delim : Char) (files : List (String × String)) :
    ∀ r ∈ (consolidateFiles delim files initState).1.consolidatedData,
    ∀ k ∈ rowKeys r,
    k = Option.none
      ∨ ∃ c ∈ (consolidateFiles delim files initState).1.allHeaders, k = some c := by
  have hinit : KeysInv initState := by
    intro r hr
    simp [initState] at hr
  exact consolidate_inv files initState hinit

/-- Witness for the amended C3 invariant on a concrete run. -/
theorem consolidate_keys_amended_witness :
    (some "A" : Option String) = Option.none
      ∨ ∃ c ∈ (consolidateFiles ',' [("f.csv", "A\n1")] initState).1.allHeaders,
          (some "A" : Option String) = some c :=
  consolidate_keys_amended ',' [("f.csv", "A\n1")]
    [((some "A" : Option String), PyVal.str "1")] (by decide)
    (some "A") (by decide)

/-- Claim C4: a file whose header parse yields column names but no
data records is re-parsed headerless — every record (here exactly the
former header record) becomes data, with synthesized column names
`Column1..ColumnN` for `N` the width of the first record; the generic
rows zip the synthesized names with the record truncated to `N`
values, so wider records drop the excess and narrower records populate
only their present columns; `"A,B,C"` alone yields the single row
`{Column1: A, Column2: B, Column3: C}`. -/
theorem readCsvFile_single_line_headerless :
    (∀ (delim : Char) (content : String) (first : List String)
       (rest : List (List String)),
      wsOnly (stripBOM content) = false →
      csvRows delim (stripBOM content) = first :: rest →
      first ≠ [] →
      rest.filter (fun v => !v.isEmpty) = [] →
      readCsvFile delim content
        = ([mkGenericRow (genHeaders first.length) first.length first],
           genHeaders first.length, true))
    ∧ (∀ (headers : List String) (n : Nat) (row : List String), headers.Nodup →
        mkGenericRow headers n row
          = (headers.zip (row.take n)).map
              (fun p => ((some p.1 : Option String), PyVal.str p.2)))
    ∧ readCsvFile ',' "A,B,C"
        = ([[((some "Column1" : Option String), PyVal.str "A"),
             (some "Column2", PyVal.str "B"), (some "Column3", PyVal.str "C")]],
           ["Column1", "Column2", "Column3"], true) := by
  exact ⟨fun delim content first rest h0 h1 h2 h3 =>
      readCsvFile_header_no_data h0 h1 h2 h3,
    fun headers n row h => mkGenericRow_eq n row h,
    by decide⟩

/-- Witness for C4 at the single-line file `"A,B,C"`. -/
theorem readCsvFile_single_line_headerless_witness :
    readCsvFile ',' "A,B,C"
      = ([mkGenericRow (genHeaders 3) 3 ["A", "B", "C"]], genHeaders 3, true)
    ∧ mkGenericRow ["Column1", "Column2"] 2 ["A", "B", "C"]
      = (["Column1", "Column2"].zip (["A", "B", "C"].take 2)).map
          (fun p => ((some p.1 : Option String), PyVal.str p.2)) :=
  ⟨readCsvFile_single_line_headerless.1 ',' "A,B,C" ["A", "B", "C"] []
      (by decide) (by decide) (by decide) (by decide),
   readCsvFile_single_line_headerless.2.1 ["Column1", "Column2"] 2 ["A", "B", "C"]
      (by decide)⟩

/-- Claim C5, counterexample.  The claim quantifies over every dataset
and ColumnSet, but a dataset whose row carries a key outside ColumnSet
makes `csv.DictWriter` raise, which `exportResults` reports as a
failure instead of writing the claimed header and data lines. -/
theorem exportLines_counterexample :
    exportLines ',' ["x"] [[((some "y" : Option String), PyVal.str "2")]] = Option.none
    ∧ exportLines ',' ["x"] [[((some "y" : Option String), PyVal.str "2")]]
        ≠ some ["x", ""] := by
  decide

/-- Claim C5, amended: for every dataset in which all row keys lie in
ColumnSet, the export writes one header line listing ColumnSet sorted
ascending by ordinal string comparison, then one line per row in
dataset order with an empty cell for every column missing from the
row; when some row carries a key outside ColumnSet the export fails
and produces no output. -/
theorem exportLines_spec :
    (∀ (delim : Char) (cols : List String) (data : List Row),
      (∀ r ∈ data, rowExtraKeys r (sortStrings cols) = []) →
      exportLines delim cols data
        = some (csvJoin delim (sortStrings cols)
            :: data.map (fun r => csvJoin delim ((sortStrings cols).map (rowCell r)))))
    ∧ (∀ cols : List String, List.Sorted strLe (sortStrings cols))
    ∧ (∀ (cols : List String) (c : String), c ∈ sortStrings cols ↔ c ∈ cols)
    ∧ (∀ (r : Row) (c : String), rowLookup r (some c) = Option.none → rowCell r c = "")
    ∧ (∀ (delim : Char) (cols : List String) (data : List Row) (r : Row),
        r ∈ data → rowExtraKeys r (sortStrings cols) ≠ [] →
        exportLines delim cols data = Option.none)
    ∧ exportLines ',' ["x", "y"]
        [[((some "x" : Option String), PyVal.str "1")],
         [((some "y" : Option String), PyVal.str "2")]]
      = some ["x,y", "1,", ",2"] := by
  refine ⟨?_, ?_, ?_, ?_, ?_, by decide⟩
  · intro delim cols data h
    have hall : data.all (fun r => (rowExtraKeys r (sortStrings cols)).isEmpty) = true := by
      rw [List.all_eq_true]
      intro r hr
      rw [h r hr]
      rfl
    simp only [exportLines, hall, if_true]
  · intro cols
    exact List.sorted_insertionSort strLe (dedupKeepFirst cols)
  · intro cols c
    rw [sortStrings, List.mem_insertionSort, mem_dedupKeepFirst]
  · intro r c h
    simp [rowCell, h]
  · intro delim cols data r hr hne
    have hall : data.all (fun r => (rowExtraKeys r (sortStrings cols)).isEmpty) = false := by
      rw [← Bool.not_eq_true, List.all_eq_true]
      intro hc
      have := hc r hr
      rw [List.isEmpty_iff] at this
      exact hne this
    simp only [exportLines, hall, Bool.false_eq_true, if_false]

/-- Witness for the amended theorem of C5 at the round-trip example
of the spec. -/
theorem exportLines_spec_witness :
    exportLines ',' ["x", "y"]
        [[((some "x" : Option String), PyVal.str "1")],
         [((some "y" : Option String), PyVal.str "2")]]
      = some (csvJoin ',' (sortStrings ["x", "y"])
          :: [[((some "x" : Option String), PyVal.str "1")],
              [((some "y" : Option String), PyVal.str "2")]].map
            (fun r => csvJoin ',' ((sortStrings ["x", "y"]).map (rowCell r))))
    ∧ exportLines ',' ["x"] [[((some "y" : Option String), PyVal.str "2")]]
        = Option.none :=
  ⟨exportLines_spec.1 ',' ["x", "y"]
      [[((some "x" : Option String), PyVal.str "1")],
       [((some "y" : Option String), PyVal.str "2")]] (by decide),
   exportLines_spec.2.2.2.2.1 ',' ["x"]
      [[((some "y" : Option String), PyVal.str "2")]]
      [((some "y" : Option String), PyVal.str "2")] (by decide) (by decide)⟩

/-- Claim C6: discovery returns the matching files sorted ascending by
the full path string (ordinal comparison), the sorted result is a
permutation of the glob matches, and an empty match list yields an
empty result rather than an error. -/
theorem findCsvFiles_sorted (fs : List (List String)) (recursive : Bool) :
    List.Sorted pathLe (findCsvFiles fs recursive)
    ∧ (findCsvFiles fs recursive).Perm
        (fs.filter (fun p => if recursive then recMatch p else flatMatch p))
    ∧ (fs.filter (fun p => if recursive then recMatch p else flatMatch p) = [] →
        findCsvFiles fs recursive = []) := by
  refine ⟨List.sorted_insertionSort pathLe _, List.perm_insertionSort pathLe _, ?_⟩
  intro h
  rw [findCsvFiles, h]
  rfl

/-- Witness for the hypothesis-bearing conjunct of C6: no matches, empty
result. -/
theorem findCsvFiles_sorted_witness : findCsvFiles [["x.txt"]] true = [] :=
  (findCsvFiles_sorted [["x.txt"]] true).2.2 (by decide)

/-- Claim C7: non-recursive discovery never returns a file from a
subdirectory (its path has exactly one component); recursive discovery
returns every match at any depth; and the non-recursive result set is
a subset of the recursive one on the same tree. -/
theorem findCsvFiles_recursive_rel :
    (∀ (fs : List (List String)) (p : List String),
      p ∈ findCsvFiles fs false → p.length = 1)
    ∧ (∀ (fs : List (List String)) (p : List String),
        p ∈ fs → recMatch p = true → p ∈ findCsvFiles fs true)
    ∧ (∀ (fs : List (List String)) (p : List String),
        p ∈ findCsvFiles fs false → p ∈ findCsvFiles fs true) := by
  have hmem : ∀ (fs : List (List String)) (recursive : Bool) (p : List String),
      p ∈ findCsvFiles fs recursive ↔
      p ∈ fs ∧ (if recursive then recMatch p else flatMatch p) = true := by
    intro fs recursive p
    rw [findCsvFiles, List.mem_insertionSort, List.mem_filter]
  refine ⟨?_, ?_, ?_⟩
  · intro fs p hp
    have h := ((hmem fs false p).mp hp).2
    simp only [Bool.false_eq_true, if_false] at h
    cases p with
    | nil => simp [flatMatch] at h
    | cons a l =>
      cases l with
      | nil => rfl
      | cons b l2 => simp [flatMatch] at h
  · intro fs p hpf hpm
    exact (hmem fs true p).mpr ⟨hpf, by simpa using hpm⟩
  · intro fs p hp
    rcases (hmem fs false p).mp hp with ⟨hpf, hmatch⟩
    simp only [Bool.false_eq_true, if_false] at hmatch
    refine (hmem fs true p).mpr ⟨hpf, ?_⟩
    cases p with
    | nil => simp [flatMatch] at hmatch
    | cons a l =>
      cases l with
      | nil => simpa [flatMatch, recMatch] using hmatch
      | cons b l2 => simp [flatMatch] at hmatch

/-- Witness for C7 on a concrete two-level tree. -/
theorem findCsvFiles_recursive_rel_witness :
    (["a.csv"] : List String).length = 1
    ∧ ["sub", "c.csv"] ∈ findCsvFiles [["a.csv"], ["sub", "c.csv"]] true
    ∧ ["a.csv"] ∈ findCsvFiles [["a.csv"], ["sub", "c.csv"]] true :=
  ⟨findCsvFiles_recursive_rel.1 [["a.csv"], ["sub", "c.csv"]] ["a.csv"] (by decide),
   findCsvFiles_recursive_rel.2.1 [["a.csv"], ["sub", "c.csv"]] ["sub", "c.csv"]
     (by decide) (by decide),
   findCsvFiles_recursive_rel.2.2 [["a.csv"], ["sub", "c.csv"]] ["a.csv"] (by decide)⟩

/-- Claim C8: the ingest boundary never propagates an error — a read
or decode exception (embedded as an absent content) and empty or
whitespace-only content both yield the failure outcome
`([], [], false)` with no rows. -/
theorem ingestFile_total (delim : Char) :
    ingestFile delim Option.none = ([], [], false)
    ∧ (∀ c : String, wsOnly (stripBOM c) = true →
        ingestFile delim (some c) = ([], [], false)) := by
  refine ⟨rfl, ?_⟩
  intro c h
  simp only [ingestFile, readCsvFile, h, if_true]

/-- Witness for C8 at a whitespace-only file content. -/
theorem ingestFile_total_witness :
    ingestFile ',' (some " \n") = ([], [], false) :=
  (ingestFile_total ',').2 " \n" (by decide)

/-- Claim C9: `checkDuplicates` is read-only — run as a transformer of
the consolidator state it leaves every field (the consolidated rows,
the header union, the processed and error counters, the error file
list) unchanged, and its numeric result depends only on
`consolidatedData`. -/
theorem checkDuplicatesS_frame (st : ConsState) :
    (checkDuplicatesS st).1.consolidatedData = st.consolidatedData
    ∧ (checkDuplicatesS st).1.allHeaders = st.allHeaders
    ∧ (checkDuplicatesS st).1.processedCount = st.processedCount
    ∧ (checkDuplicatesS st).1.errorCount = st.errorCount
    ∧ (checkDuplicatesS st).1.errorFiles = st.errorFiles
    ∧ (checkDuplicatesS st).2 = checkDuplicates st.consolidatedData :=
  ⟨rfl, rfl, rfl, rfl, rfl, rfl⟩

theorem mem_foldl_dictInsert (pairs : List (Option String × PyVal)) :
    ∀ (d : Row) (x : Option String × PyVal),
    x ∈ pairs.foldl (fun d kv => dictInsert d kv.1 kv.2) d → x ∈ d ∨ x ∈ pairs := by
  induction pairs with
  | nil => intro d x h; left; exact h
  | cons kv rest ih =>
    intro d x h
    simp only [List.foldl_cons] at h
    rcases ih _ x h with h2 | h2
    · rcases mem_dictInsert h2 with h3 | h3
      · left; exact h3
      · right; simp [h3]
    · right; simp [h2]

theorem mem_dictOfPairs {pairs : List (Option String × PyVal)}
    {x : Option String × PyVal} (h : x ∈ dictOfPairs pairs) : x ∈ pairs := by
  rcases mem_foldl_dictInsert pairs [] x h with h2 | h2
  · simp at h2
  · exact h2

/-- Claim C10: in the headerless synthesis only records that parse to
zero fields are skipped (the kept rows are in bijection with the
non-empty records, and every non-empty record is kept); a record of
all-empty fields — a delimiter-only line — is kept and every value of
its synthesized row is the empty string; the file `",,"` yields one
row mapping `Column1..Column3` to `""`. -/
theorem headerless_blank_skip :
    (∀ (first : List String) (rest : List (List String)),
      (headerlessParse (first :: rest)).1.length
        = ((first :: rest).filter (fun v => !v.isEmpty)).length)
    ∧ (∀ (first : List String) (rest : List (List String)) (v : List String),
        v ∈ first :: rest → v ≠ [] →
        mkGenericRow (genHeaders first.length) first.length v
          ∈ (headerlessParse (first :: rest)).1)
    ∧ (∀ (headers : List String) (n : Nat) (v : List String),
        (∀ s ∈ v, s = "") →
        ∀ kv ∈ mkGenericRow headers n v, kv.2 = PyVal.str "")
    ∧ readCsvFile ',' ",,"
        = ([[((some "Column1" : Option String), PyVal.str ""),
             (some "Column2", PyVal.str ""), (some "Column3", PyVal.str "")]],
           ["Column1", "Column2", "Column3"], true) := by
  refine ⟨?_, ?_, ?_, by decide⟩
  · intro first rest
    simp [headerlessParse]
  · intro first rest v hv hne
    simp only [headerlessParse]
    apply List.mem_map_of_mem
    rw [List.mem_filter]
    refine ⟨hv, ?_⟩
    cases v with
    | nil => exact absurd rfl hne
    | cons a l => rfl
  · intro headers n v hall kv hkv
    have h := mem_dictOfPairs hkv
    rcases List.mem_map.mp h with ⟨p, hp, hpe⟩
    have hzip := List.of_mem_zip hp
    have hv : p.2 ∈ v := List.take_subset _ _ hzip.2
    rw [← hpe]
    simp [hall p.2 hv]

/-- Witness for the hypothesis-bearing conjuncts of C10 on a delimiter-only
record. -/
theorem headerless_blank_skip_witness :
    mkGenericRow (genHeaders 2) 2 ["", ""] ∈ (headerlessParse [["", ""], []]).1
    ∧ ((some "Column1" : Option String), PyVal.str "").2 = PyVal.str "" :=
  ⟨headerless_blank_skip.2.1 ["", ""] [[]] ["", ""] (by decide) (by decide),
   headerless_blank_skip.2.2.1 (genHeaders 2) 2 ["", ""] (by decide)
     ((some "Column1" : Option String), PyVal.str "") (by decide)⟩
